import Mathlib

/-!
# Verification of the lazyreview change-review core

This file gives a shallow embedding, in Lean 4, of the core logic of the
lazyreview terminal change-review tool (a TypeScript/Bun application):

* `src/utils/git.ts` — diff parsing (`parseDiff`), changed-line extraction
  (`parseChangedLines`), synthetic diffs for untracked files
  (`generateUnifiedDiff`), and the lazy per-file detail loader
  (`loadFileDetails`), with external `git` calls abstracted by an oracle;
* `src/app.tsx` — the pieces of the Solid-based application state that the
  specification speaks about: the lazy-load resolution callback, the `m`
  mode-switch keyboard handler, the search executor (`executeSearch`), and
  the chunk/match cyclic navigation index maps (`jumpToNextChunk`,
  `jumpToPrevChunk`, `jumpToNextMatch`, `jumpToPrevMatch`).

Strings are embedded as `List Char`; JavaScript's `string.split("\n")` is
`splitNl`, and the anchored-nowhere hunk-header regex
`@@ -\d+(?:,\d+)? \+(\d+)(?:,\d+)? @@` is modelled by a deterministic
leftmost matcher `findHunkNums` (the pattern admits no backtracking that
maximal-munch digit scanning does not reproduce).  JavaScript numbers that
can go negative (`currentLine`, chunk indices) are embedded as `Int`;
counters that stay non-negative are `Nat`.
-/

/-- Model of JavaScript `s.split("\n")` on `List Char`:
splitting the empty string yields one empty piece. -/
def splitNl : List Char → List (List Char)
  | [] => [[]]
  | c :: cs =>
    if c = '\n' then [] :: splitNl cs
    else
      match splitNl cs with
      | [] => [[c]]
      | l :: ls => (c :: l) :: ls

/-- Model of JavaScript `lines.join("\n")`. -/
def joinNl : List (List Char) → List Char
  | [] => []
  | [l] => l
  | l :: l' :: ls => l ++ '\n' :: joinNl (l' :: ls)

/-- Skip the optional `(?:,\d+)?` group of the hunk-header regex:
consume a comma followed by a nonempty digit run, or consume nothing. -/
def skipOptCount (l : List Char) : List Char :=
  match l with
  | ',' :: r =>
    if (r.takeWhile Char.isDigit) = [] then l else r.dropWhile Char.isDigit
  | _ => l

/-- Digit run to a number, as JavaScript `parseInt(ds, 10)` on a nonempty
all-digit string. -/
def digitsToNat (ds : List Char) : Nat :=
  ds.foldl (fun acc c => acc * 10 + (c.toNat - 48)) 0

/-- Does the remainder continue with the closing `" @@"` of the pattern? -/
def endsAtAt (l : List Char) : Bool :=
  match l with
  | ' ' :: '@' :: '@' :: _ => true
  | _ => false

/-- Try to match `@@ -\d+(?:,\d+)? \+(\d+)(?:,\d+)? @@` at the head of `l`,
returning the two captured start numbers (old, new).  Maximal-munch digit
scanning is equivalent to the regex here: shortening a `\d+` can only expose
another digit, which matches neither `,` nor a space. -/
def tryMatchHunk (l : List Char) : Option (Nat × Nat) :=
  match l with
  | '@' :: '@' :: ' ' :: '-' :: r1 =>
    let ds1 := r1.takeWhile Char.isDigit
    if ds1 = [] then none
    else
      match skipOptCount (r1.dropWhile Char.isDigit) with
      | ' ' :: '+' :: r3 =>
        let ds2 := r3.takeWhile Char.isDigit
        if ds2 = [] then none
        else
          if endsAtAt (skipOptCount (r3.dropWhile Char.isDigit)) then
            some (digitsToNat ds1, digitsToNat ds2)
          else none
      | _ => none
  | _ => none

/-- Leftmost occurrence of the hunk-header pattern anywhere in the line,
as JavaScript `line.match(/@@ -\d+(?:,\d+)? \+(\d+)(?:,\d+)? @@/)`. -/
def findHunkNums : List Char → Option (Nat × Nat)
  | [] => none
  | c :: t =>
    match tryMatchHunk (c :: t) with
    | some r => some r
    | none => findHunkNums t

/-- Loop body of `parseChangedLines` (git.ts, lines 70–96), over the already
split lines of the diff.  `cur` is the running 0-indexed position in the new
file; it is an `Int` because the header `@@ -0,0 +0,0 @@` sets it to `-1`. -/
def parseChangedLinesAux (cur : Int) : List (List Char) → List Int
  | [] => []
  | l :: ls =>
    if ("@@".toList).isPrefixOf l then
      match findHunkNums l with
      | some (_, n) => parseChangedLinesAux ((n : Int) - 1) ls
      | none => parseChangedLinesAux cur ls
    else if ("+".toList).isPrefixOf l && !("+++".toList).isPrefixOf l then
      cur :: parseChangedLinesAux (cur + 1) ls
    else if ("-".toList).isPrefixOf l && !("---".toList).isPrefixOf l then
      cur :: parseChangedLinesAux cur ls
    else if (" ".toList).isPrefixOf l || l.isEmpty then
      parseChangedLinesAux (cur + 1) ls
    else
      parseChangedLinesAux cur ls

/-- `parseChangedLines` from git.ts: the changed 0-indexed new-file
positions recorded while walking the raw diff. -/
def parseChangedLines (diff : List Char) : List Int :=
  parseChangedLinesAux 0 (splitNl diff)

/-- The additions counter of `loadFileDetails` (git.ts, lines 514–522):
diff rows starting with `+` but not `+++`. -/
def countAdds (diff : List Char) : Nat :=
  ((splitNl diff).filter
    (fun l => ("+".toList).isPrefixOf l && !("+++".toList).isPrefixOf l)).length

/-- The deletions counter of `loadFileDetails` (git.ts, lines 514–522):
diff rows starting with `-` but not `---`. -/
def countDels (diff : List Char) : Nat :=
  ((splitNl diff).filter
    (fun l => ("-".toList).isPrefixOf l && !("---".toList).isPrefixOf l)).length

/-- Kind of a parsed diff row (git.ts `DiffLine.type`). -/
inductive DiffLineKind where
  | header
  | context
  | addition
  | deletion
deriving DecidableEq

/-- A parsed diff row (git.ts `DiffLine`). -/
structure DiffLine where
  kind : DiffLineKind
  content : List Char
  oldLineNumber : Option Nat := none
  newLineNumber : Option Nat := none
deriving DecidableEq

/-- Loop body of `parseDiff` (git.ts, lines 231–281) over the split lines,
carrying the running old/new line counters (both start at 0 and are only
ever set to regex-captured numbers or incremented, so they stay `Nat`). -/
def parseDiffAux (oldN newN : Nat) : List (List Char) → List DiffLine
  | [] => []
  | l :: ls =>
    if ("@@".toList).isPrefixOf l then
      match findHunkNums l with
      | some (o, n) => ⟨.header, l, none, none⟩ :: parseDiffAux o n ls
      | none => ⟨.header, l, none, none⟩ :: parseDiffAux oldN newN ls
    else if ("+++".toList).isPrefixOf l || ("---".toList).isPrefixOf l then
      parseDiffAux oldN newN ls
    else if ("diff --git".toList).isPrefixOf l || ("new file".toList).isPrefixOf l
        || ("index ".toList).isPrefixOf l then
      parseDiffAux oldN newN ls
    else if ("+".toList).isPrefixOf l then
      ⟨.addition, l.drop 1, none, some newN⟩ :: parseDiffAux oldN (newN + 1) ls
    else if ("-".toList).isPrefixOf l then
      ⟨.deletion, l.drop 1, some oldN, none⟩ :: parseDiffAux (oldN + 1) newN ls
    else if (" ".toList).isPrefixOf l || l.isEmpty then
      if oldN > 0 || newN > 0 then
        ⟨.context, l.drop 1, some oldN, some newN⟩ :: parseDiffAux (oldN + 1) (newN + 1) ls
      else
        parseDiffAux oldN newN ls
    else
      parseDiffAux oldN newN ls

/-- `parseDiff` from git.ts: raw unified diff to typed line records. -/
def parseDiff (diff : List Char) : List DiffLine :=
  parseDiffAux 0 0 (splitNl diff)

/-- The rows `parseDiff` emits for one input line given the counters
(zero or one row), stated separately so the per-line behaviour of
`parseDiffAux` can be expressed as a theorem. -/
def diffLineEmit (oldN newN : Nat) (l : List Char) : List DiffLine :=
  if ("@@".toList).isPrefixOf l then [⟨.header, l, none, none⟩]
  else if ("+++".toList).isPrefixOf l || ("---".toList).isPrefixOf l then []
  else if ("diff --git".toList).isPrefixOf l || ("new file".toList).isPrefixOf l
      || ("index ".toList).isPrefixOf l then []
  else if ("+".toList).isPrefixOf l then [⟨.addition, l.drop 1, none, some newN⟩]
  else if ("-".toList).isPrefixOf l then [⟨.deletion, l.drop 1, some oldN, none⟩]
  else if (" ".toList).isPrefixOf l || l.isEmpty then
    if oldN > 0 || newN > 0 then [⟨.context, l.drop 1, some oldN, some newN⟩] else []
  else []

/-- The counter update `parseDiff` performs for one input line. -/
def diffLineStep (oldN newN : Nat) (l : List Char) : Nat × Nat :=
  if ("@@".toList).isPrefixOf l then
    match findHunkNums l with
    | some (o, n) => (o, n)
    | none => (oldN, newN)
  else if ("+++".toList).isPrefixOf l || ("---".toList).isPrefixOf l then (oldN, newN)
  else if ("diff --git".toList).isPrefixOf l || ("new file".toList).isPrefixOf l
      || ("index ".toList).isPrefixOf l then (oldN, newN)
  else if ("+".toList).isPrefixOf l then (oldN, newN + 1)
  else if ("-".toList).isPrefixOf l then (oldN + 1, newN)
  else if (" ".toList).isPrefixOf l || l.isEmpty then
    if oldN > 0 || newN > 0 then (oldN + 1, newN + 1) else (oldN, newN)
  else (oldN, newN)

/-- Whether `parseDiff` emits a row for this input line: hunk headers always;
otherwise any non-metadata line marked `+`, `-`, or (once a header has made a
counter positive) a context/blank line.  Everything else — the five metadata
prefixes and lines starting with none of the recognised markers — is dropped. -/
def emitsLine (oldN newN : Nat) (l : List Char) : Bool :=
  ("@@".toList).isPrefixOf l ||
  (!(("+++".toList).isPrefixOf l || ("---".toList).isPrefixOf l
      || ("diff --git".toList).isPrefixOf l || ("new file".toList).isPrefixOf l
      || ("index ".toList).isPrefixOf l) &&
    (("+".toList).isPrefixOf l || ("-".toList).isPrefixOf l
      || (((" ".toList).isPrefixOf l || l.isEmpty) && (oldN > 0 || newN > 0))))

/-- The lines the claim "output ordering is exactly the input line ordering
minus the dropped metadata lines (and minus context/blank lines occurring
before any hunk header has initialized the counters)" predicts `parseDiff`
keeps.  Written from the claim's words, to be compared with the code. -/
def claimKeptLines (diff : List Char) : List (List Char) :=
  go false (splitNl diff)
where
  go (seenHeader : Bool) : List (List Char) → List (List Char)
  | [] => []
  | l :: ls =>
    let seen' := seenHeader || (("@@".toList).isPrefixOf l && (findHunkNums l).isSome)
    if ("+++".toList).isPrefixOf l || ("---".toList).isPrefixOf l
        || ("diff --git".toList).isPrefixOf l || ("new file".toList).isPrefixOf l
        || ("index ".toList).isPrefixOf l then
      go seen' ls
    else if ((" ".toList).isPrefixOf l || l.isEmpty) && !seenHeader then
      go seen' ls
    else
      l :: go seen' ls

/-- All positions `i ≤ s.length` at which `q` occurs as a literal substring
of `s` (prefix of the suffix starting at `i`), in ascending order. -/
def occList (q s : List Char) : List Nat :=
  (List.range (s.length + 1)).filter (fun i => q.isPrefixOf (s.drop i))

/-- JavaScript `s.indexOf(q, start)` for the uses made by `executeSearch`:
the least occurrence position `≥ start`, if any.  (JavaScript clamps the
empty-needle case to the string length; `executeSearch` guards the empty
query away before ever calling `indexOf`, so that corner is not exercised.) -/
def idxFrom (q s : List Char) (start : Nat) : Option Nat :=
  ((occList q s).filter (fun i => start ≤ i)).head?

/-- The inner `while (true)` scan of `executeSearch` (app.tsx, lines
576–585): repeatedly take the next occurrence at or after the cursor and
restart one past its start, so overlapping occurrences are all found.
The loop runs at most `s.length + 1` times because each found index is at
least the cursor and the cursor then strictly increases; the `fuel`
argument makes this bound explicit (see `scanFrom_eq_filter`). -/
def scanFrom (q s : List Char) : Nat → Nat → List Nat
  | 0, _ => []
  | fuel + 1, start =>
    match idxFrom q s start with
    | none => []
    | some i => i :: scanFrom q s fuel (i + 1)

/-- Match starts found on one content line by `executeSearch`. -/
def scanLine (q s : List Char) : List Nat :=
  scanFrom q s (s.length + 1) 0

/-- A search match as stored in the `searchMatches` signal (app.tsx,
line 313): line index, start column, and match length, 0-indexed. -/
structure SearchMatch where
  line : Nat
  start : Nat
  len : Nat
deriving DecidableEq

/-- The pure core of `executeSearch` (app.tsx, lines 573–585): split the
content on newlines and collect every per-line occurrence of the query. -/
def searchMatchesFn (content q : List Char) : List SearchMatch :=
  ((splitNl content).enum).flatMap
    (fun p => (scanLine q p.2).map (fun st => ⟨p.1, st, q.length⟩))

/-- Index map of `jumpToNextChunk` (app.tsx, lines 531–546): no-op on zero
chunks; from "not on any chunk" (< 0) or the last chunk, go to chunk 0;
otherwise advance. -/
def nextChunk (i : Int) (count : Nat) : Int :=
  if count = 0 then i
  else if i < 0 then 0
  else if i ≥ (count : Int) - 1 then 0
  else i + 1

/-- Index map of `jumpToPrevChunk` (app.tsx, lines 549–561): no-op on zero
chunks; at or before chunk 0, wrap to the last chunk; otherwise step back. -/
def prevChunk (i : Int) (count : Nat) : Int :=
  if count = 0 then i
  else if i ≤ 0 then (count : Int) - 1
  else i - 1

/-- Index map of `jumpToNextMatch` (app.tsx, lines 601–612): no-op on zero
matches; otherwise `(i + 1) % count` with JavaScript's truncated `%`. -/
def nextMatch (i : Int) (count : Nat) : Int :=
  if count = 0 then i else Int.tmod (i + 1) count

/-- Index map of `jumpToPrevMatch` (app.tsx, lines 615–626): no-op on zero
matches; at or before match 0, wrap to the last match; otherwise step back. -/
def prevMatch (i : Int) (count : Nat) : Int :=
  if count = 0 then i
  else if i ≤ 0 then (count : Int) - 1
  else i - 1

/-- `k`-fold iteration of an index map, to state the cyclicity claim. -/
def iterN (f : Int → Int) : Nat → Int → Int
  | 0, i => i
  | k + 1, i => iterN f k (f i)

/-- File status (git.ts `FileChange.status`). -/
inductive FileStatus where
  | added
  | modified
  | deleted
  | renamed
  | untracked
deriving DecidableEq

/-- One changed file (git.ts `FileChange`).  `changedLines` keeps the
JavaScript `Set<number>` as a list in insertion order without duplicates;
`firstChangeLine` is an `Int` because `parseChangedLines` can record `-1`. -/
structure FileChange where
  path : List Char
  status : FileStatus
  oldPath : Option (List Char) := none
  additions : Nat := 0
  deletions : Nat := 0
  diff : List Char := []
  content : List Char := []
  firstChangeLine : Int := 0
  changedLines : List Int := []
deriving DecidableEq

/-- Insertion into a JavaScript `Set` held as an insertion-ordered list. -/
def setInsert (acc : List Int) (x : Int) : List Int :=
  if x ∈ acc then acc else acc ++ [x]

/-- `new Set(xs)` in insertion order. -/
def toInsertionSet (l : List Int) : List Int :=
  l.foldl setInsert []

/-- Decimal rendering of a number, as JavaScript template interpolation
`${n}` of a non-negative integer. -/
def natDigitsAux : Nat → Nat → List Char
  | 0, _ => []
  | _, 0 => []
  | fuel + 1, n + 1 =>
    natDigitsAux fuel ((n + 1) / 10) ++ [Char.ofNat (48 + (n + 1) % 10)]

/-- Decimal rendering of `n` (`${n}` in a template literal). -/
def natDigits (n : Nat) : List Char :=
  if n = 0 then ['0'] else natDigitsAux n n

/-- `generateUnifiedDiff` from git.ts (lines 56–67): a synthetic one-hunk
diff declaring the whole file as added. -/
def generateUnifiedDiff (content : List Char) : List Char :=
  let lines := splitNl content
  joinNl (("@@ -0,0 +1,".toList ++ natDigits lines.length ++ " @@".toList)
    :: lines.map (fun l => '+' :: l))

/-- Comparison target passed to `loadFileDetails` (git.ts, line 458). -/
inductive CompareTarget where
  | dirty
  | commit (hash : List Char)
  | branch (name : List Char)
deriving DecidableEq

/-- The shapes of external `git` invocations `loadFileDetails` performs. -/
inductive GitCmd where
  | diffHead (path : List Char)
  | showHead (path : List Char)
  | diffCached (path : List Char)
  | diffUnstaged (path : List Char)
  | diffCommit (hash path : List Char)
  | showCommit (hash path : List Char)
  | showCommitParent (hash path : List Char)
  | diffBranch (name path : List Char)
  | showBranch (name path : List Char)

/-- Oracle for the external world: `readFile` models `readFileContent`,
which catches its own failures and returns the empty string; `run` models a
`Bun.$ ... .quiet()` invocation, which throws (here: `.error`) on failure. -/
structure Oracle where
  readFile : List Char → List Char
  run : GitCmd → Except Unit (List Char)

/-- The retrieval phase of `loadFileDetails` (git.ts, lines 460–505): choose
diff and content sources by `(compareTarget, status)`.  Any `.error` models a
thrown shell failure, caught by the surrounding `try` of the source. -/
def fetchPhase (file : FileChange) (t : CompareTarget) (o : Oracle) :
    Except Unit (List Char × List Char) := do
  match t with
  | .dirty =>
    match file.status with
    | .untracked =>
      let content := o.readFile file.path
      return (generateUnifiedDiff content, content)
    | .deleted =>
      let diff ← o.run (.diffHead file.path)
      let content ← o.run (.showHead file.path)
      return (diff, content)
    | _ =>
      let content := o.readFile file.path
      let staged ← o.run (.diffCached file.path)
      let unstaged ← o.run (.diffUnstaged file.path)
      return (if staged = [] then unstaged else staged, content)
  | .commit hash =>
    let diff ← o.run (.diffCommit hash file.path)
    if file.status ≠ .deleted then
      let content ← o.run (.showCommit hash file.path)
      return (diff, content)
    else
      let content ← o.run (.showCommitParent hash file.path)
      return (diff, content)
  | .branch name =>
    let diff ← o.run (.diffBranch name file.path)
    if file.status ≠ .deleted then
      return (diff, o.readFile file.path)
    else
      let content ← o.run (.showBranch name file.path)
      return (diff, content)

/-- `loadFileDetails` from git.ts (lines 456–538): retrieve diff and content
for one file, derive changed lines and counts, and return the enriched file;
on any retrieval failure the `catch` returns the input file unchanged. -/
def loadFileDetails (file : FileChange) (t : CompareTarget) (o : Oracle) :
    FileChange :=
  match fetchPhase file t o with
  | .error _ => file
  | .ok (diff, content) =>
    let changed := toInsertionSet (parseChangedLines diff)
    let firstChange : Int :=
      match changed with
      | [] => 0
      | x :: xs => xs.foldl min x
    { file with
      diff := diff
      content := content
      additions := countAdds diff
      deletions := countDels diff
      firstChangeLine := firstChange
      changedLines := changed }

/-- Application mode (git.ts `AppMode`). -/
inductive AppMode where
  | dirty
  | commit
  | branch
deriving DecidableEq

/-- View level (app.tsx `viewState` signal): list of commits/branches, or
the files view. -/
inductive ViewState where
  | list
  | files
deriving DecidableEq

/-- Focused panel (app.tsx `focusedPanel` signal). -/
inductive Panel where
  | files
  | diff
deriving DecidableEq

/-- A commit summary (git.ts `CommitInfo`). -/
structure CommitInfo where
  hash : List Char
  shortHash : List Char
  author : List Char
  date : List Char
  message : List Char
deriving DecidableEq

/-- A branch summary (git.ts `BranchInfo`). -/
structure BranchInfo where
  name : List Char
  isCurrent : Bool
deriving DecidableEq

/-- The signals of `App` (app.tsx) that the verified behaviours read or
write.  `height` is the terminal height from `useTerminalDimensions`;
`scrollOffset`, `currentChunkIndex` and `currentMatchIndex` are `Int`
because the code stores `-1` (chunks) and computes with wraparound. -/
structure AppState where
  mode : AppMode
  viewState : ViewState
  files : List FileChange
  selectedIndex : Nat
  focusedPanel : Panel
  scrollOffset : Int
  listSelectedIndex : Nat
  selectedCommit : Option CommitInfo
  selectedBranch : Option BranchInfo
  loadingFile : Bool
  searchMode : Bool
  searchQuery : List Char
  searchActive : Bool
  searchMatches : List SearchMatch
  currentMatchIndex : Int
  currentChunkIndex : Int
  height : Int

/-- `selectedFile` memo (app.tsx, line 335): `files()[selectedIndex()] ?? null`. -/
def selectedFileOf (st : AppState) : Option FileChange :=
  st.files.get? st.selectedIndex

/-- `getMaxScroll` (app.tsx, lines 481–486), with
`visibleHeight = height - 4` (line 353). -/
def getMaxScroll (st : AppState) : Int :=
  match selectedFileOf st with
  | none => 0
  | some f => max 0 (((splitNl f.content).length : Int) - (st.height - 4))

/-- `clearSearch` (app.tsx, lines 317–323). -/
def clearSearch (st : AppState) : AppState :=
  { st with
    searchMode := false
    searchQuery := []
    searchActive := false
    searchMatches := []
    currentMatchIndex := 0 }

/-- `executeSearch` (app.tsx, lines 564–598): guard out an empty query or
missing file; otherwise store all matches, reset the current match index to
0, activate the search, and jump the scroll to the first match if any. -/
def executeSearch (st : AppState) : AppState :=
  match selectedFileOf st with
  | none => { st with searchMatches := [], searchActive := false }
  | some f =>
    if st.searchQuery = [] then { st with searchMatches := [], searchActive := false }
    else
      let ms := searchMatchesFn f.content st.searchQuery
      let st1 := { st with searchMatches := ms, currentMatchIndex := 0, searchActive := true }
      match ms with
      | [] => st1
      | m :: _ =>
        { st1 with scrollOffset := min (max 0 ((m.line : Int) - 5)) (getMaxScroll st1) }

/-- The `.then` continuation of the lazy-load effect (app.tsx, lines
378–387): splice the loaded file into the files array by path, drop the
loading flag, scroll to the first change with 5 context lines, and set the
chunk index to 0.  Note there is no guard comparing the loaded file against
the current selection or comparison target. -/
def applyLoadResult (st : AppState) (loadedFile : FileChange) : AppState :=
  { st with
    files := st.files.map (fun f => if f.path = loadedFile.path then loadedFile else f)
    loadingFile := false
    scrollOffset := max 0 (loadedFile.firstChangeLine - 5)
    currentChunkIndex := 0 }

/-- The mode cycle of the `m` key handler (app.tsx, lines 711–713). -/
def nextAppMode : AppMode → AppMode
  | .dirty => .commit
  | .commit => .branch
  | .branch => .dirty

/-- The listing operation the `m` handler launches for the new mode
(app.tsx, lines 725–731). -/
inductive LoadOp where
  | loadDirtyChanges
  | loadCommits
  | loadBranches
deriving DecidableEq

/-- Listing operation chosen for a mode by the `m` handler. -/
def loadOpFor : AppMode → LoadOp
  | .dirty => .loadDirtyChanges
  | .commit => .loadCommits
  | .branch => .loadBranches

/-- The `m` mode-switch key handler (app.tsx, lines 710–733): cycle the
mode, reset view level, focus, both selection indices and the scroll, clear
the selected commit/branch and the loaded files, then launch the listing
operation for the new mode.  It does not touch the search signals. -/
def modeSwitchKey (st : AppState) : AppState × LoadOp :=
  let next := nextAppMode st.mode
  ({ st with
      mode := next
      viewState := if next = .dirty then .files else .list
      focusedPanel := .files
      listSelectedIndex := 0
      selectedIndex := 0
      scrollOffset := 0
      selectedCommit := none
      selectedBranch := none
      files := [] }, loadOpFor next)

/-- A freshly listed file as produced by the fast listing calls: empty
diff/content, zero counts. -/
def listedFile (p : List Char) (s : FileStatus) : FileChange :=
  { path := p, status := s }

/-- Oracle whose every external `git` invocation fails (e.g. the repository
is gone), and whose file reads yield the given content. -/
def failingOracle (fileContent : List Char) : Oracle :=
  { readFile := fun _ => fileContent, run := fun _ => .error () }

/-- Oracle for exercising the untracked/dirty path: the working-tree read
returns `fileContent`; no `git` command is ever consulted on that path. -/
def untrackedOracle (fileContent : List Char) : Oracle :=
  failingOracle fileContent

/-- A concrete baseline application state used by the concrete scenarios:
dirty mode, files view, no files, nothing searched, 24-row terminal. -/
def state0 : AppState :=
  { mode := .dirty
    viewState := .files
    files := []
    selectedIndex := 0
    focusedPanel := .files
    scrollOffset := 0
    listSelectedIndex := 0
    selectedCommit := none
    selectedBranch := none
    loadingFile := false
    searchMode := false
    searchQuery := []
    searchActive := false
    searchMatches := []
    currentMatchIndex := 0
    currentChunkIndex := -1
    height := 24 }

/-! ## Helper lemmas -/

theorem tl_atat : "@@".toList = ['@', '@'] := rfl

theorem tl_plus : "+".toList = ['+'] := rfl

theorem tl_plus3 : "+++".toList = ['+', '+', '+'] := rfl

theorem tl_minus : "-".toList = ['-'] := rfl

theorem tl_minus3 : "---".toList = ['-', '-', '-'] := rfl

theorem tl_space : " ".toList = [' '] := rfl

/-! ## C1 — the changed-positions walk -/

/-- **C1.** `changedPositions` (source: `parseChangedLines`) walks the raw
diff with one 0-indexed `currentLine` counter: a parseable hunk header sets
it to the new-start minus one; an addition line records it then increments;
a deletion line records it without incrementing; a context or empty line
increments without recording.  On the diff
`"@@ -1,3 +1,4 @@\n context\n+added line\n context"` the changed positions
are exactly `{1}`. -/
theorem C1_changedPositions_walk :
    (∀ (cur : Int) (ls : List (List Char)) (l : List Char) (o n : Nat),
      ("@@".toList).isPrefixOf l = true → findHunkNums l = some (o, n) →
      parseChangedLinesAux cur (l :: ls) = parseChangedLinesAux ((n : Int) - 1) ls) ∧
    (∀ (cur : Int) (ls : List (List Char)) (l : List Char),
      ("+".toList).isPrefixOf l = true → ("+++".toList).isPrefixOf l = false →
      parseChangedLinesAux cur (l :: ls) = cur :: parseChangedLinesAux (cur + 1) ls) ∧
    (∀ (cur : Int) (ls : List (List Char)) (l : List Char),
      ("-".toList).isPrefixOf l = true → ("---".toList).isPrefixOf l = false →
      parseChangedLinesAux cur (l :: ls) = cur :: parseChangedLinesAux cur ls) ∧
    (∀ (cur : Int) (ls : List (List Char)) (l : List Char),
      ((" ".toList).isPrefixOf l = true ∨ l = []) →
      parseChangedLinesAux cur (l :: ls) = parseChangedLinesAux (cur + 1) ls) ∧
    parseChangedLines ("@@ -1,3 +1,4 @@\n context\n+added line\n context".toList) = [1] := by
  refine ⟨?_, ?_, ?_, ?_, by decide⟩
  · intro cur ls l o n hpre hfind
    rw [tl_atat] at hpre
    have hp : ['@', '@'] <+: l := List.isPrefixOf_iff_prefix.mp hpre
    simp [parseChangedLinesAux, tl_atat, hp, hfind]
  · intro cur ls l h1 h2
    cases l with
    | nil => simp [tl_plus, List.isPrefixOf] at h1
    | cons c t =>
      rw [tl_plus] at h1
      simp [List.isPrefixOf] at h1
      subst h1
      rw [tl_plus3] at h2
      simp [List.isPrefixOf] at h2
      simp [parseChangedLinesAux, tl_atat, tl_plus, tl_plus3, List.isPrefixOf, h2]
  · intro cur ls l h1 h2
    cases l with
    | nil => simp [tl_minus, List.isPrefixOf] at h1
    | cons c t =>
      rw [tl_minus] at h1
      simp [List.isPrefixOf] at h1
      subst h1
      rw [tl_minus3] at h2
      simp [List.isPrefixOf] at h2
      simp [parseChangedLinesAux, tl_atat, tl_plus, tl_minus, tl_minus3, List.isPrefixOf, h2]
  · intro cur ls l h
    rcases h with h | h
    · cases l with
      | nil => simp [tl_space, List.isPrefixOf] at h
      | cons c t =>
        rw [tl_space] at h
        simp [List.isPrefixOf] at h
        subst h
        simp [parseChangedLinesAux, tl_atat, tl_plus, tl_minus, tl_space, List.isPrefixOf]
    · subst h
      simp [parseChangedLinesAux, tl_atat, tl_plus, tl_minus, tl_space, List.isPrefixOf]

/-- Witness for C1: the four step clauses applied at concrete lines, and the
concrete scenario. -/
theorem C1_changedPositions_walk_witness :
    parseChangedLinesAux 7 ["@@ -4,2 +9,3 @@".toList] = [] ∧
    parseChangedLinesAux 7 ["+ab".toList] = [7] ∧
    parseChangedLinesAux 7 ["-ab".toList] = [7] ∧
    parseChangedLinesAux 7 [" ab".toList] = [] ∧
    parseChangedLinesAux 7 [[]] = [] := by
  refine ⟨?_, ?_, ?_, ?_, ?_⟩
  · exact (C1_changedPositions_walk.1 7 [] ("@@ -4,2 +9,3 @@".toList) 4 9
      (by decide) (by decide)).trans (by decide)
  · exact (C1_changedPositions_walk.2.1 7 [] ("+ab".toList)
      (by decide) (by decide)).trans (by decide)
  · exact (C1_changedPositions_walk.2.2.1 7 [] ("-ab".toList)
      (by decide) (by decide)).trans (by decide)
  · exact (C1_changedPositions_walk.2.2.2.1 7 [] (" ab".toList)
      (Or.inl (by decide))).trans (by decide)
  · exact (C1_changedPositions_walk.2.2.2.1 7 [] []
      (Or.inr rfl)).trans (by decide)

/-! ## C10 — lines whose own text starts with `++` / `--` are miscounted -/

/-- **C10.** A diff row beginning with `+++` (an added line whose text
starts with `++`) or `---` (a deleted line whose text starts with `--`)
matches the file-header metadata test, so `parseChangedLines` skips it
entirely and the additions/deletions counters of `loadFileDetails` do not
count it; consequently counts and changed positions undercount.  Concretely,
loading an untracked two-line file `"a\n++b"` reports 1 addition and changed
lines `{0}` although the file has 2 lines, and the two-deletion diff
`"@@ -1,2 +1,1 @@\n-a\n---b"` counts 1 deletion and records position 0 only. -/
theorem C10_plusplus_rows_excluded :
    (∀ (cur : Int) (ls : List (List Char)) (l : List Char),
      ("+++".toList).isPrefixOf l = true →
      parseChangedLinesAux cur (l :: ls) = parseChangedLinesAux cur ls) ∧
    (∀ (cur : Int) (ls : List (List Char)) (l : List Char),
      ("---".toList).isPrefixOf l = true →
      parseChangedLinesAux cur (l :: ls) = parseChangedLinesAux cur ls) ∧
    (loadFileDetails (listedFile ("f.txt".toList) .untracked) .dirty
        (untrackedOracle ("a\n++b".toList))).additions = 1 ∧
    (loadFileDetails (listedFile ("f.txt".toList) .untracked) .dirty
        (untrackedOracle ("a\n++b".toList))).changedLines = [0] ∧
    (splitNl ("a\n++b".toList)).length = 2 ∧
    countDels ("@@ -1,2 +1,1 @@\n-a\n---b".toList) = 1 ∧
    parseChangedLines ("@@ -1,2 +1,1 @@\n-a\n---b".toList) = [0] := by
  refine ⟨?_, ?_, by decide, by decide, by decide, by decide, by decide⟩
  · intro cur ls l h
    rw [tl_plus3] at h
    obtain ⟨t, rfl⟩ := List.isPrefixOf_iff_prefix.mp h
    simp [parseChangedLinesAux, tl_atat, tl_plus, tl_plus3, tl_minus, tl_space,
      List.isPrefixOf]
  · intro cur ls l h
    rw [tl_minus3] at h
    obtain ⟨t, rfl⟩ := List.isPrefixOf_iff_prefix.mp h
    simp [parseChangedLinesAux, tl_atat, tl_plus, tl_minus, tl_minus3, tl_space,
      List.isPrefixOf]

/-- Witness for C10: the two skip clauses applied at concrete rows. -/
theorem C10_plusplus_rows_excluded_witness :
    parseChangedLinesAux 3 ["+++x".toList] = [] ∧
    parseChangedLinesAux 3 ["---x".toList] = [] := by
  constructor
  · exact (C10_plusplus_rows_excluded.1 3 [] ("+++x".toList) (by decide)).trans
      (by decide)
  · exact (C10_plusplus_rows_excluded.2.1 3 [] ("---x".toList) (by decide)).trans
      (by decide)

/-! ## C6 — cyclic chunk/match navigation -/

theorem iterN_rot (count d : Int) (hc : 0 < count) (f : Int → Int)
    (hf : ∀ i : Int, 0 ≤ i → i < count → f i = (i + d) % count) :
    ∀ (k : Nat) (i : Int), 0 ≤ i → i < count →
      iterN f k i = (i + (k : Int) * d) % count := by
  intro k
  induction k with
  | zero =>
    intro i h0 h1
    simp [iterN, Int.emod_eq_of_lt h0 h1]
  | succ k ih =>
    intro i h0 h1
    have hb0 : 0 ≤ (i + d) % count := Int.emod_nonneg _ (by omega)
    have hb1 : (i + d) % count < count := Int.emod_lt_of_pos _ hc
    rw [iterN, hf i h0 h1, ih _ hb0 hb1, Int.emod_add_emod]
    congr 1
    push_cast
    ring

theorem rot_cycle (count d : Int) (hc : 0 < count) (f : Int → Int)
    (hf : ∀ i : Int, 0 ≤ i → i < count → f i = (i + d) % count)
    (i : Int) (h0 : 0 ≤ i) (h1 : i < count) :
    iterN f count.toNat i = i := by
  rw [iterN_rot count d hc f hf count.toNat i h0 h1]
  rw [Int.toNat_of_nonneg (by omega)]
  rw [Int.add_mul_emod_self_left]
  exact Int.emod_eq_of_lt h0 h1

theorem nextChunk_rot (count : Nat) (hc : 0 < count) (i : Int)
    (h0 : 0 ≤ i) (h1 : i < count) :
    nextChunk i count = (i + 1) % (count : Int) := by
  unfold nextChunk
  rw [if_neg (by omega), if_neg (by omega)]
  by_cases h : i ≥ (count : Int) - 1
  · rw [if_pos h]
    have : i = (count : Int) - 1 := by omega
    subst this
    simp [Int.emod_self]
  · rw [if_neg h]
    rw [Int.emod_eq_of_lt (by omega) (by omega)]

theorem prevChunk_rot (count : Nat) (hc : 0 < count) (i : Int)
    (h0 : 0 ≤ i) (h1 : i < count) :
    prevChunk i count = (i + ((count : Int) - 1)) % (count : Int) := by
  unfold prevChunk
  rw [if_neg (by omega)]
  by_cases h : i ≤ 0
  · rw [if_pos h]
    have : i = 0 := by omega
    subst this
    rw [Int.emod_eq_of_lt (by omega) (by omega)]
    omega
  · rw [if_neg h]
    have : i + ((count : Int) - 1) = (i - 1) + (count : Int) * 1 := by ring
    rw [this, Int.add_mul_emod_self_left, Int.emod_eq_of_lt (by omega) (by omega)]

theorem nextMatch_rot (count : Nat) (hc : 0 < count) (i : Int)
    (h0 : 0 ≤ i) (_h1 : i < count) :
    nextMatch i count = (i + 1) % (count : Int) := by
  unfold nextMatch
  rw [if_neg (by omega), Int.tmod_eq_emod (by omega) (by omega)]

theorem prevMatch_eq_prevChunk : prevMatch = prevChunk := rfl

/-- Counterexample to **C6** as stated: with one chunk, invoking `nextChunk`
once (`chunkCount` times) from the reachable "not on any chunk" start index
`-1` lands on chunk 0 and does not return to `-1`; the cyclic-return claim
fails for start indices outside `0 .. chunkCount - 1`. -/
theorem C6_cyclicity_counterexample :
    iterN (fun j => nextChunk j 1) 1 (-1) = 0 ∧ ¬ ((0 : Int) = -1) := by
  constructor
  · decide
  · decide

/-- **C6 (amended).** `nextChunk` maps a negative index to 0, an index at or
past `chunkCount - 1` to 0, and otherwise advances by one; `prevChunk` maps
an index at or below 0 to `chunkCount - 1` and otherwise steps back; both
leave the index unchanged when `chunkCount = 0`; and `nextChunk`,
`prevChunk`, `nextMatch`, `prevMatch` each return to the original index
after `count` invocations from any start index in `0 .. count - 1` (the
"not on a chunk" start `-1` instead enters the cycle at 0 and never
returns to `-1`, per the counterexample). -/
theorem C6_navigation_cyclic :
    (∀ i : Int, nextChunk i 0 = i ∧ prevChunk i 0 = i ∧
      nextMatch i 0 = i ∧ prevMatch i 0 = i) ∧
    (∀ (count : Nat) (i : Int), count ≠ 0 → i < 0 → nextChunk i count = 0) ∧
    (∀ (count : Nat) (i : Int), count ≠ 0 → 0 ≤ i → (count : Int) - 1 ≤ i →
      nextChunk i count = 0) ∧
    (∀ (count : Nat) (i : Int), count ≠ 0 → 0 ≤ i → i < (count : Int) - 1 →
      nextChunk i count = i + 1) ∧
    (∀ (count : Nat) (i : Int), count ≠ 0 → i ≤ 0 →
      prevChunk i count = (count : Int) - 1) ∧
    (∀ (count : Nat) (i : Int), count ≠ 0 → 0 < i → prevChunk i count = i - 1) ∧
    (∀ (count : Nat) (i : Int), 0 ≤ i → i < count →
      iterN (fun j => nextChunk j count) count i = i ∧
      iterN (fun j => prevChunk j count) count i = i ∧
      iterN (fun j => nextMatch j count) count i = i ∧
      iterN (fun j => prevMatch j count) count i = i) := by
  refine ⟨?_, ?_, ?_, ?_, ?_, ?_, ?_⟩
  · intro i
    refine ⟨?_, ?_, ?_, ?_⟩ <;> simp [nextChunk, prevChunk, nextMatch, prevMatch]
  · intro count i h1 h2
    simp only [nextChunk]
    rw [if_neg h1, if_pos h2]
  · intro count i h1 h2 h3
    simp only [nextChunk]
    rw [if_neg h1, if_neg (by omega), if_pos (by omega)]
  · intro count i h1 h2 h3
    simp only [nextChunk]
    rw [if_neg h1, if_neg (by omega), if_neg (by omega)]
  · intro count i h1 h2
    simp only [prevChunk]
    rw [if_neg h1, if_pos h2]
  · intro count i h1 h2
    simp only [prevChunk]
    rw [if_neg h1, if_neg (by omega)]
  · intro count i h0 h1
    have hc : 0 < count := by omega
    have hc' : (0 : Int) < (count : Int) := by exact_mod_cast hc
    have hnext : iterN (fun j => nextChunk j count) count i = i := by
      have h := rot_cycle (count : Int) 1 hc' (fun j => nextChunk j count)
        (fun j hj0 hj1 => nextChunk_rot count hc j hj0 hj1) i h0 h1
      simpa using h
    have hprev : iterN (fun j => prevChunk j count) count i = i := by
      have h := rot_cycle (count : Int) ((count : Int) - 1) hc'
        (fun j => prevChunk j count)
        (fun j hj0 hj1 => prevChunk_rot count hc j hj0 hj1) i h0 h1
      simpa using h
    have hnm : iterN (fun j => nextMatch j count) count i = i := by
      have h := rot_cycle (count : Int) 1 hc' (fun j => nextMatch j count)
        (fun j hj0 hj1 => nextMatch_rot count hc j hj0 hj1) i h0 h1
      simpa using h
    have hpm : iterN (fun j => prevMatch j count) count i = i := by
      rw [prevMatch_eq_prevChunk]
      exact hprev
    exact ⟨hnext, hprev, hnm, hpm⟩

/-- Witness for C6: the mapping clauses and the four cycles at concrete
indices and counts. -/
theorem C6_navigation_cyclic_witness :
    nextChunk (-3) 4 = 0 ∧ nextChunk 3 4 = 0 ∧ nextChunk 1 4 = 2 ∧
    prevChunk 0 4 = 3 ∧ prevChunk 2 4 = 1 ∧
    iterN (fun j => nextChunk j 3) 3 1 = 1 ∧
    iterN (fun j => prevChunk j 3) 3 1 = 1 ∧
    iterN (fun j => nextMatch j 3) 3 1 = 1 ∧
    iterN (fun j => prevMatch j 3) 3 1 = 1 := by
  have h7 := C6_navigation_cyclic.2.2.2.2.2.2 3 1 (by omega) (by omega)
  exact ⟨C6_navigation_cyclic.2.1 4 (-3) (by omega) (by omega),
    C6_navigation_cyclic.2.2.1 4 3 (by omega) (by omega) (by omega),
    C6_navigation_cyclic.2.2.2.1 4 1 (by omega) (by omega) (by omega),
    C6_navigation_cyclic.2.2.2.2.1 4 0 (by omega) (by omega),
    C6_navigation_cyclic.2.2.2.2.2.1 4 2 (by omega) (by omega),
    h7.1, h7.2.1, h7.2.2.1, h7.2.2.2⟩

/-! ## C3 — scroll and chunk index after a successful lazy load -/

/-- Counterexample to **C3** as stated: the lazy-load continuation sets the
chunk-navigation index to 0, not to the "not-yet-on-a-chunk" value `-1`
(app.tsx line 387 calls `setCurrentChunkIndex(0)`). -/
theorem C3_chunkIndex_counterexample :
    (applyLoadResult state0 (listedFile ("a.txt".toList) .modified)).currentChunkIndex = 0 ∧
    ¬ ((0 : Int) = -1) := by
  constructor
  · rfl
  · decide

/-- **C3 (amended).** After every successful lazy detail load, the scroll
offset is set to `max(0, firstChangeLine - contextLines)` with
`contextLines = 5`, the loading flag is dropped, and the chunk-navigation
index is reset to 0 (the first chunk), not to `-1`. -/
theorem C3_load_scroll_and_chunk :
    ∀ (st : AppState) (f : FileChange),
      (applyLoadResult st f).scrollOffset = max 0 (f.firstChangeLine - 5) ∧
      (applyLoadResult st f).currentChunkIndex = 0 ∧
      (applyLoadResult st f).loadingFile = false := by
  intro st f
  exact ⟨rfl, rfl, rfl⟩

/-! ## C2 — no equality guard on stale load resolution -/

/-- Counterexample to **C2** as stated: resolve a stale load after the
state has moved on (scroll back at 0, chunk index `-1`, and the file entry
re-listed with empty content).  The stale result is applied, not discarded:
the entry's content becomes the stale load's content, the scroll offset is
overwritten to `max(0, 100 - 5) = 95`, and the chunk index to 0 — there is
no equality guard before applying the result. -/
theorem C2_stale_load_counterexample :
    (applyLoadResult
        { state0 with
            files := [listedFile ("a.txt".toList) .modified]
            scrollOffset := 0
            currentChunkIndex := -1 }
        { listedFile ("a.txt".toList) .modified with
            content := "old".toList
            firstChangeLine := 100 }).scrollOffset = 95 ∧
    (applyLoadResult
        { state0 with
            files := [listedFile ("a.txt".toList) .modified]
            scrollOffset := 0
            currentChunkIndex := -1 }
        { listedFile ("a.txt".toList) .modified with
            content := "old".toList
            firstChangeLine := 100 }).currentChunkIndex = 0 ∧
    (applyLoadResult
        { state0 with
            files := [listedFile ("a.txt".toList) .modified]
            scrollOffset := 0
            currentChunkIndex := -1 }
        { listedFile ("a.txt".toList) .modified with
            content := "old".toList
            firstChangeLine := 100 }).files.map FileChange.content = ["old".toList] := by
  refine ⟨by decide, by decide, by decide⟩

/-- **C2 (amended).** When a lazy load resolves there is no equality guard:
the result is applied unconditionally.  The files array is updated
pointwise — an entry whose path equals the loaded file's path is replaced
by the loaded file, every other entry is untouched, and a path absent from
the current array is not re-inserted — while the scroll offset, the chunk
index and the loading flag are overwritten from the loaded file even if the
selection or comparison target has changed; the selection, mode and search
signals are left as they are. -/
theorem C2_stale_load_applied_unconditionally :
    ∀ (st : AppState) (lf : FileChange),
      (∀ i : Nat, (applyLoadResult st lf).files.get? i =
        (st.files.get? i).map (fun f => if f.path = lf.path then lf else f)) ∧
      (applyLoadResult st lf).scrollOffset = max 0 (lf.firstChangeLine - 5) ∧
      (applyLoadResult st lf).currentChunkIndex = 0 ∧
      (applyLoadResult st lf).loadingFile = false ∧
      (applyLoadResult st lf).mode = st.mode ∧
      (applyLoadResult st lf).selectedIndex = st.selectedIndex ∧
      (applyLoadResult st lf).searchMatches = st.searchMatches ∧
      (applyLoadResult st lf).searchActive = st.searchActive := by
  intro st lf
  refine ⟨?_, rfl, rfl, rfl, rfl, rfl, rfl, rfl⟩
  intro i
  simp [applyLoadResult, List.get?_eq_getElem?, List.getElem?_map]

/-! ## C4 — the mode-switch step does not clear the search -/

/-- Counterexample to **C4** as stated: switching mode from a state with an
active search leaves the search query, match list, active flag and current
match index untouched — the `m` handler (app.tsx lines 710–733) never calls
`clearSearch`. -/
theorem C4_modeSwitch_counterexample :
    ((modeSwitchKey
        { state0 with
            searchActive := true
            searchQuery := "foo".toList
            searchMatches := [⟨0, 0, 3⟩]
            currentMatchIndex := 2 }).1.searchActive = true) ∧
    ((modeSwitchKey
        { state0 with
            searchActive := true
            searchQuery := "foo".toList
            searchMatches := [⟨0, 0, 3⟩]
            currentMatchIndex := 2 }).1.searchMatches = [⟨0, 0, 3⟩]) ∧
    ((modeSwitchKey
        { state0 with
            searchActive := true
            searchQuery := "foo".toList
            searchMatches := [⟨0, 0, 3⟩]
            currentMatchIndex := 2 }).1.searchQuery = "foo".toList) ∧
    ((modeSwitchKey
        { state0 with
            searchActive := true
            searchQuery := "foo".toList
            searchMatches := [⟨0, 0, 3⟩]
            currentMatchIndex := 2 }).1.currentMatchIndex = 2) := by
  refine ⟨rfl, rfl, rfl, rfl⟩

/-- **C4 (amended).** Every mode-cycle step (`Dirty → Commit → Branch →
Dirty`) resets the view level to Files for Dirty and List otherwise,
focuses the files panel, clears both selection indices and the scroll,
clears the selected commit/branch and the loaded files, and launches the
listing operation of the new mode — but it leaves the entire search state
(query, match list, active flag, current match index) unchanged; search is
only cleared later, by the file-selection effect, when a file with a
different path becomes selected. -/
theorem C4_modeSwitch_resets :
    ∀ st : AppState,
      (modeSwitchKey st).1.mode = nextAppMode st.mode ∧
      (modeSwitchKey st).1.viewState =
        (if nextAppMode st.mode = .dirty then ViewState.files else ViewState.list) ∧
      (modeSwitchKey st).1.focusedPanel = Panel.files ∧
      (modeSwitchKey st).1.selectedIndex = 0 ∧
      (modeSwitchKey st).1.listSelectedIndex = 0 ∧
      (modeSwitchKey st).1.scrollOffset = 0 ∧
      (modeSwitchKey st).1.selectedCommit = none ∧
      (modeSwitchKey st).1.selectedBranch = none ∧
      (modeSwitchKey st).1.files = [] ∧
      (modeSwitchKey st).2 = loadOpFor (nextAppMode st.mode) ∧
      (modeSwitchKey st).1.searchQuery = st.searchQuery ∧
      (modeSwitchKey st).1.searchActive = st.searchActive ∧
      (modeSwitchKey st).1.searchMatches = st.searchMatches ∧
      (modeSwitchKey st).1.currentMatchIndex = st.currentMatchIndex ∧
      (modeSwitchKey st).1.searchMode = st.searchMode ∧
      nextAppMode .dirty = .commit ∧ nextAppMode .commit = .branch ∧
      nextAppMode .branch = .dirty := by
  intro st
  exact ⟨rfl, rfl, rfl, rfl, rfl, rfl, rfl, rfl, rfl, rfl, rfl, rfl, rfl, rfl,
    rfl, rfl, rfl, rfl⟩


/-! ## C9 — failure leaves the file unchanged; C5 — literal search -/

theorem mem_occList {q s : List Char} {i : Nat} :
    i ∈ occList q s ↔ i ≤ s.length ∧ q.isPrefixOf (s.drop i) = true := by
  simp [occList, List.mem_filter, List.mem_range, Nat.lt_succ_iff]

theorem occList_pairwise (q s : List Char) : (occList q s).Pairwise (· < ·) :=
  List.Pairwise.filter _ (List.pairwise_lt_range _)

theorem filter_ge_tail :
    ∀ {L : List Nat}, L.Pairwise (· < ·) → ∀ {a i : Nat} {t : List Nat},
      L.filter (fun x => a ≤ x) = i :: t → L.filter (fun x => i + 1 ≤ x) = t := by
  intro L
  induction L with
  | nil =>
    intro _ a i t h
    simp at h
  | cons x L' ih =>
    intro hp a i t h
    have hx : ∀ y ∈ L', x < y := (List.pairwise_cons.mp hp).1
    have hp' := (List.pairwise_cons.mp hp).2
    by_cases hax : a ≤ x
    · rw [List.filter_cons_of_pos (by simpa using hax)] at h
      injection h with h1 h2
      subst h2
      cases h1
      rw [List.filter_cons_of_neg (by simp)]
      have e1 : L'.filter (fun y => x + 1 ≤ y) = L' := by
        refine List.filter_eq_self.mpr ?_
        intro y hy
        have := hx y hy
        simp only [decide_eq_true_eq]
        omega
      have e2 : L'.filter (fun y => a ≤ y) = L' := by
        refine List.filter_eq_self.mpr ?_
        intro y hy
        have := hx y hy
        simp only [decide_eq_true_eq]
        omega
      rw [e1, e2]
    · rw [List.filter_cons_of_neg (by simpa using hax)] at h
      have hi : i ∈ L'.filter (fun x => a ≤ x) := by
        rw [h]
        exact List.mem_cons_self _ _
      have hiL : i ∈ L' := (List.mem_filter.mp hi).1
      have hxi : x < i := hx i hiL
      rw [List.filter_cons_of_neg (by simp only [decide_eq_true_eq]; omega)]
      exact ih hp' h

theorem scanFrom_eq_filter (q s : List Char) :
    ∀ (fuel start : Nat),
      ((occList q s).filter (fun i => start ≤ i)).length ≤ fuel →
      scanFrom q s fuel start = (occList q s).filter (fun i => start ≤ i) := by
  intro fuel
  induction fuel with
  | zero =>
    intro start h
    have hnil : (occList q s).filter (fun i => start ≤ i) = [] :=
      List.length_eq_zero.mp (Nat.le_zero.mp h)
    rw [hnil, scanFrom]
  | succ fuel ih =>
    intro start h
    cases hF : (occList q s).filter (fun i => start ≤ i) with
    | nil =>
      have hidx : idxFrom q s start = none := by
        unfold idxFrom
        rw [hF]
        rfl
      simp only [scanFrom, hidx]
    | cons j t =>
      have hidx : idxFrom q s start = some j := by
        unfold idxFrom
        rw [hF]
        rfl
      have ht : (occList q s).filter (fun i => j + 1 ≤ i) = t :=
        filter_ge_tail (occList_pairwise q s) hF
      have hlen : ((occList q s).filter (fun i => j + 1 ≤ i)).length ≤ fuel := by
        rw [ht]
        have : (j :: t).length ≤ fuel + 1 := hF ▸ h
        simpa using this
      simp only [scanFrom, hidx]
      rw [ih (j + 1) hlen, ht]

theorem scanLine_eq_occList (q s : List Char) : scanLine q s = occList q s := by
  unfold scanLine
  have hb : ((occList q s).filter (fun i => 0 ≤ i)).length ≤ s.length + 1 := by
    calc ((occList q s).filter (fun i => 0 ≤ i)).length
        ≤ (occList q s).length := List.length_filter_le _ _
      _ ≤ (List.range (s.length + 1)).length := List.length_filter_le _ _
      _ = s.length + 1 := List.length_range _
  rw [scanFrom_eq_filter q s (s.length + 1) 0 hb]
  exact List.filter_eq_self.mpr (by intro a _; simp)

theorem prefix_pos_le {q l : List Char} {i : Nat} (hq : q ≠ [])
    (h : q.isPrefixOf (l.drop i) = true) : i ≤ l.length := by
  by_contra hgt
  push_neg at hgt
  have hd : l.drop i = [] := List.drop_eq_nil_of_le (by omega)
  rw [hd] at h
  cases q with
  | nil => exact hq rfl
  | cons a q' => simp [List.isPrefixOf] at h

/-- **C9.** `loadFileDetails` never raises: whenever the retrieval phase
fails (any external `git` invocation on the exercised path throws), the
`catch` returns the input `FileChange` exactly as it was — diff and content
still empty, nothing else touched. -/
theorem C9_loadDetails_failure_unchanged :
    ∀ (file : FileChange) (t : CompareTarget) (o : Oracle),
      (∃ e, fetchPhase file t o = .error e) → loadFileDetails file t o = file := by
  rintro file t o ⟨e, he⟩
  simp [loadFileDetails, he]

/-- Witness for C9: a commit-mode load against an oracle whose `git`
invocations all fail returns the listed file unchanged. -/
theorem C9_loadDetails_failure_unchanged_witness :
    loadFileDetails (listedFile ("a.txt".toList) .modified) (.commit ("abc".toList))
      (failingOracle []) = listedFile ("a.txt".toList) .modified :=
  C9_loadDetails_failure_unchanged _ _ _ ⟨(), rfl⟩

/-- **C5.** `search(content, query)` splits the content on newlines and,
per line, records exactly the occurrences of the query as a literal
case-sensitive substring — the cursor advances by 1 after each hit, so the
matches are precisely all occurrence positions, overlapping ones included;
an empty query yields no matches and deactivates the search; a fresh
non-empty search stores the matches, sets `currentMatchIndex` to 0 and
activates the search; and searching `"foo"` in `"foo bar foofoo"` gives
exactly the three matches at line 0, starts 0, 8 and 11. -/
theorem C5_search_literal_overlapping :
    (∀ (content q : List Char), q ≠ [] → ∀ m : SearchMatch,
      (m ∈ searchMatchesFn content q ↔
        m.len = q.length ∧ ∃ l, (splitNl content).get? m.line = some l ∧
          q.isPrefixOf (l.drop m.start) = true)) ∧
    (∀ st : AppState, st.searchQuery = [] →
      (executeSearch st).searchMatches = [] ∧ (executeSearch st).searchActive = false) ∧
    (∀ (st : AppState) (f : FileChange), selectedFileOf st = some f →
      st.searchQuery ≠ [] →
      (executeSearch st).currentMatchIndex = 0 ∧
      (executeSearch st).searchMatches = searchMatchesFn f.content st.searchQuery ∧
      (executeSearch st).searchActive = true) ∧
    searchMatchesFn ("foo bar foofoo".toList) ("foo".toList) =
      [⟨0, 0, 3⟩, ⟨0, 8, 3⟩, ⟨0, 11, 3⟩] := by
  refine ⟨?_, ?_, ?_, by decide⟩
  · intro content q hq m
    constructor
    · intro hm
      unfold searchMatchesFn at hm
      obtain ⟨p, hp, hm2⟩ := List.mem_flatMap.mp hm
      obtain ⟨st, hst, heq⟩ := List.mem_map.mp hm2
      obtain ⟨li, l⟩ := p
      cases heq
      rw [scanLine_eq_occList] at hst
      have hget : (splitNl content).get? li = some l := by
        rw [List.get?_eq_getElem?]
        exact List.mem_enum_iff_getElem?.mp hp
      refine ⟨rfl, l, hget, (mem_occList.mp hst).2⟩
    · rintro ⟨hlen, l, hget, hpre⟩
      have hle : m.start ≤ l.length := prefix_pos_le hq hpre
      unfold searchMatchesFn
      have hget' : (splitNl content)[m.line]? = some l := by
        rw [← List.get?_eq_getElem?]
        exact hget
      refine List.mem_flatMap.mpr
        ⟨(m.line, l), List.mem_enum_iff_getElem?.mpr hget', ?_⟩
      refine List.mem_map.mpr ⟨m.start, ?_, ?_⟩
      · rw [scanLine_eq_occList]
        exact mem_occList.mpr ⟨hle, hpre⟩
      · cases m
        simp at hlen
        rw [hlen]
  · intro st hq
    cases hsf : selectedFileOf st with
    | none => simp [executeSearch, hsf]
    | some f => simp [executeSearch, hsf, hq]
  · intro st f hf hq
    cases hms : searchMatchesFn f.content st.searchQuery with
    | nil => simp [executeSearch, hf, hq, hms]
    | cons m ms' => simp [executeSearch, hf, hq, hms]

/-- Witness for C5: an overlapping occurrence is reported as a match, the
empty query yields no matches, and a fresh search resets the match index. -/
theorem C5_search_literal_overlapping_witness :
    (⟨0, 1, 2⟩ : SearchMatch) ∈ searchMatchesFn ("aaa".toList) ("aa".toList) ∧
    (executeSearch state0).searchMatches = [] ∧
    (executeSearch
      { state0 with
          files := [{ listedFile ("a.txt".toList) .modified with content := "foo".toList }]
          searchQuery := "foo".toList }).currentMatchIndex = 0 := by
  refine ⟨?_, ?_, ?_⟩
  · exact (C5_search_literal_overlapping.1 ("aaa".toList) ("aa".toList)
      (by decide) ⟨0, 1, 2⟩).mpr ⟨rfl, "aaa".toList, by decide, by decide⟩
  · exact (C5_search_literal_overlapping.2.1 state0 rfl).1
  · exact (C5_search_literal_overlapping.2.2.1
      { state0 with
          files := [{ listedFile ("a.txt".toList) .modified with content := "foo".toList }]
          searchQuery := "foo".toList }
      { listedFile ("a.txt".toList) .modified with content := "foo".toList }
      rfl (by decide)).1


/-! ## C8 — synthesized diff for untracked files -/

theorem splitNl_no_nl {l : List Char} (h : '\n' ∉ l) : splitNl l = [l] := by
  induction l with
  | nil => rfl
  | cons c cs ih =>
    have hc : c ≠ '\n' := by
      intro he
      exact h (he ▸ List.mem_cons_self _ _)
    have hcs : '\n' ∉ cs := fun hm => h (List.mem_cons_of_mem _ hm)
    rw [splitNl, if_neg hc, ih hcs]

theorem takeWhile_all_append {p : Char → Bool} :
    ∀ (ds r : List Char), (∀ c ∈ ds, p c = true) →
      (ds ++ r).takeWhile p = ds ++ r.takeWhile p := by
  intro ds
  induction ds with
  | nil => intro r _; simp
  | cons d ds ih =>
    intro r hall
    rw [List.cons_append, List.takeWhile_cons, if_pos (hall d (List.mem_cons_self _ _))]
    rw [ih r (fun c hc => hall c (List.mem_cons_of_mem _ hc)), List.cons_append]

theorem dropWhile_all_append {p : Char → Bool} :
    ∀ (ds r : List Char), (∀ c ∈ ds, p c = true) →
      (ds ++ r).dropWhile p = r.dropWhile p := by
  intro ds
  induction ds with
  | nil => intro r _; simp
  | cons d ds ih =>
    intro r hall
    rw [List.cons_append, List.dropWhile_cons_of_pos (hall d (List.mem_cons_self _ _))]
    exact ih r (fun c hc => hall c (List.mem_cons_of_mem _ hc))

theorem tryMatchHunk_synth (ds : List Char) (hds : ∀ c ∈ ds, c.isDigit = true)
    (hne : ds ≠ []) :
    tryMatchHunk
      ('@' :: '@' :: ' ' :: '-' :: '0' :: ',' :: '0' :: ' ' :: '+' :: '1' :: ',' ::
        (ds ++ [' ', '@', '@'])) = some (0, 1) := by
  have htake : (ds ++ [' ', '@', '@']).takeWhile Char.isDigit = ds := by
    rw [takeWhile_all_append _ _ hds]
    simp
  have hdrop : (ds ++ [' ', '@', '@']).dropWhile Char.isDigit = [' ', '@', '@'] := by
    rw [dropWhile_all_append _ _ hds]
    decide
  have hskip : skipOptCount (',' :: (ds ++ [' ', '@', '@'])) = [' ', '@', '@'] := by
    have e : skipOptCount (',' :: (ds ++ [' ', '@', '@'])) =
        if (ds ++ [' ', '@', '@']).takeWhile Char.isDigit = []
        then ',' :: (ds ++ [' ', '@', '@'])
        else (ds ++ [' ', '@', '@']).dropWhile Char.isDigit := rfl
    rw [e, htake, hdrop, if_neg hne]
  have e2 : tryMatchHunk
      ('@' :: '@' :: ' ' :: '-' :: '0' :: ',' :: '0' :: ' ' :: '+' :: '1' :: ',' ::
        (ds ++ [' ', '@', '@'])) =
      if endsAtAt (skipOptCount (',' :: (ds ++ [' ', '@', '@']))) then
        some (digitsToNat ['0'], digitsToNat ['1'])
      else none := rfl
  rw [e2, hskip]
  decide

theorem natDigitsAux_digits :
    ∀ (fuel n : Nat), ∀ c ∈ natDigitsAux fuel n, c.isDigit = true := by
  intro fuel
  induction fuel with
  | zero =>
    intro n c hc
    simp [natDigitsAux] at hc
  | succ fuel ih =>
    intro n c hc
    cases n with
    | zero => simp [natDigitsAux] at hc
    | succ m =>
      rw [natDigitsAux] at hc
      rcases List.mem_append.mp hc with h | h
      · exact ih _ c h
      · have hce : c = Char.ofNat (48 + (m + 1) % 10) := by simpa using h
        subst hce
        have hlt : (m + 1) % 10 < 10 := Nat.mod_lt _ (by omega)
        interval_cases h10 : (m + 1) % 10 <;> decide

theorem natDigits_digits : ∀ (n : Nat), ∀ c ∈ natDigits n, c.isDigit = true := by
  intro n c hc
  unfold natDigits at hc
  split at hc
  · simp at hc
    subst hc
    decide
  · exact natDigitsAux_digits _ _ c hc

theorem natDigits_ne_nil (n : Nat) : natDigits n ≠ [] := by
  unfold natDigits
  split
  · simp
  · rename_i hn
    cases n with
    | zero => exact absurd rfl hn
    | succ m =>
      rw [natDigitsAux]
      simp

theorem natDigits_no_nl (n : Nat) : '\n' ∉ natDigits n := by
  intro h
  have := natDigits_digits n '\n' h
  simp [Char.isDigit] at this

theorem findHunkNums_gen_header (N : Nat) :
    findHunkNums ("@@ -0,0 +1,".toList ++ natDigits N ++ " @@".toList) = some (0, 1) := by
  have hd : "@@ -0,0 +1,".toList ++ natDigits N ++ " @@".toList =
      '@' :: '@' :: ' ' :: '-' :: '0' :: ',' :: '0' :: ' ' :: '+' :: '1' :: ',' ::
        (natDigits N ++ [' ', '@', '@']) := rfl
  rw [hd, findHunkNums,
    tryMatchHunk_synth (natDigits N) (natDigits_digits N) (natDigits_ne_nil N)]

theorem tl_plus2 : "++".toList = ['+', '+'] := rfl

theorem pcl_plus_rows :
    ∀ (ls : List (List Char)) (cur : Int),
      (∀ l ∈ ls, ("++".toList).isPrefixOf l = false) →
      parseChangedLinesAux cur (ls.map (fun l => '+' :: l)) =
        (List.range ls.length).map (fun k : Nat => cur + (k : Int)) := by
  intro ls
  induction ls with
  | nil =>
    intro cur _
    simp [parseChangedLinesAux]
  | cons l ls ih =>
    intro cur hall
    have hl : ("++".toList).isPrefixOf l = false := hall l (List.mem_cons_self _ _)
    rw [tl_plus2] at hl
    rw [List.map_cons]
    have hstep : parseChangedLinesAux cur (('+' :: l) :: ls.map (fun l => '+' :: l)) =
        cur :: parseChangedLinesAux (cur + 1) (ls.map (fun l => '+' :: l)) := by
      simp [parseChangedLinesAux, tl_atat, tl_plus, tl_plus3, List.isPrefixOf, hl]
    rw [hstep, ih (cur + 1) (fun x hx => hall x (List.mem_cons_of_mem _ hx))]
    rw [List.length_cons, List.range_succ_eq_map, List.map_cons, List.map_map]
    congr 1
    · norm_num
    · refine List.map_congr_left ?_
      intro k _
      simp [Function.comp]
      ring

theorem foldl_setInsert_fresh :
    ∀ (l acc : List Int), l.Nodup → (∀ x ∈ l, x ∉ acc) →
      l.foldl setInsert acc = acc ++ l := by
  intro l
  induction l with
  | nil =>
    intro acc _ _
    simp
  | cons x l ih =>
    intro acc hnd hfresh
    rw [List.foldl_cons]
    have hx : setInsert acc x = acc ++ [x] :=
      if_neg (hfresh x (List.mem_cons_self _ _))
    rw [hx, ih (acc ++ [x]) (List.nodup_cons.mp hnd).2]
    · simp
    · intro y hy
      rw [List.mem_append]
      rintro (hmem | hmem)
      · exact hfresh y (List.mem_cons_of_mem _ hy) hmem
      · have : y = x := by simpa using hmem
        subst this
        exact (List.nodup_cons.mp hnd).1 hy

theorem toInsertionSet_nodup {l : List Int} (h : l.Nodup) : toInsertionSet l = l := by
  unfold toInsertionSet
  rw [foldl_setInsert_fresh l [] h (by simp)]
  simp

theorem splitNl_append_cons {l : List Char} (r : List Char) (h : '\n' ∉ l) :
    splitNl (l ++ '\n' :: r) = l :: splitNl r := by
  induction l with
  | nil =>
    simp [splitNl]
  | cons c cs ih =>
    have hc : c ≠ '\n' := by
      intro he
      exact h (he ▸ List.mem_cons_self _ _)
    have hcs : '\n' ∉ cs := fun hm => h (List.mem_cons_of_mem _ hm)
    rw [List.cons_append, splitNl, if_neg hc, ih hcs]

theorem splitNl_joinNl :
    ∀ {ls : List (List Char)}, ls ≠ [] → (∀ l ∈ ls, '\n' ∉ l) →
      splitNl (joinNl ls) = ls := by
  intro ls
  induction ls with
  | nil => intro h; exact absurd rfl h
  | cons l ls ih =>
    intro _ hall
    cases ls with
    | nil =>
      rw [joinNl]
      exact splitNl_no_nl (hall l (List.mem_cons_self _ _))
    | cons l' ls' =>
      rw [joinNl, splitNl_append_cons _ (hall l (List.mem_cons_self _ _))]
      rw [ih (by simp) (fun x hx => hall x (List.mem_cons_of_mem _ hx))]

/-- **C8 (amended).** For an untracked file of `N ≥ 1` non-empty lines none
of which begins with `++`, the dirty-mode `loadDetails` synthesizes a single
unified-diff block with hunk header `@@ -0,0 +1,N @@` and every file line as
a `+` row, stores the raw content, and yields `additions = N`,
`deletions = 0` and `changedLines = {0 .. N-1}`.  (A line starting with `++`
breaks the count — see the counterexample.) -/
theorem C8_untracked_loadDetails :
    ∀ (p : List Char) (ls : List (List Char)) (o : Oracle),
      ls ≠ [] →
      (∀ l ∈ ls, l ≠ [] ∧ '\n' ∉ l ∧ ("++".toList).isPrefixOf l = false) →
      o.readFile p = joinNl ls →
      (loadFileDetails (listedFile p .untracked) .dirty o).diff =
        joinNl (("@@ -0,0 +1,".toList ++ natDigits ls.length ++ " @@".toList)
          :: ls.map (fun l => '+' :: l)) ∧
      (loadFileDetails (listedFile p .untracked) .dirty o).content = joinNl ls ∧
      (loadFileDetails (listedFile p .untracked) .dirty o).additions = ls.length ∧
      (loadFileDetails (listedFile p .untracked) .dirty o).deletions = 0 ∧
      (loadFileDetails (listedFile p .untracked) .dirty o).changedLines =
        (List.range ls.length).map (fun k : Nat => (k : Int)) := by
  intro p ls o hne hprops ho
  have hnl : ∀ l ∈ ls, '\n' ∉ l := fun l hl => (hprops l hl).2.1
  have hplus : ∀ l ∈ ls, ("++".toList).isPrefixOf l = false :=
    fun l hl => (hprops l hl).2.2
  have hsplit : splitNl (joinNl ls) = ls := splitNl_joinNl hne hnl
  have hgen : generateUnifiedDiff (joinNl ls) =
      joinNl (("@@ -0,0 +1,".toList ++ natDigits ls.length ++ " @@".toList)
        :: ls.map (fun l => '+' :: l)) := by
    unfold generateUnifiedDiff
    rw [hsplit]
  have hfetch : fetchPhase (listedFile p .untracked) .dirty o =
      Except.ok (generateUnifiedDiff (joinNl ls), joinNl ls) := by
    have h0 : fetchPhase (listedFile p .untracked) .dirty o =
        Except.ok (generateUnifiedDiff (o.readFile p), o.readFile p) := rfl
    rw [h0, ho]
  have hsplitD : splitNl (generateUnifiedDiff (joinNl ls)) =
      ("@@ -0,0 +1,".toList ++ natDigits ls.length ++ " @@".toList)
        :: ls.map (fun l => '+' :: l) := by
    rw [hgen]
    refine splitNl_joinNl (by simp) ?_
    intro x hx
    rcases List.mem_cons.mp hx with hx | hx
    · subst hx
      intro hmem
      rcases List.mem_append.mp hmem with hmem | hmem
      · rcases List.mem_append.mp hmem with hmem | hmem
        · simp at hmem
        · exact natDigits_no_nl _ hmem
      · simp at hmem
    · obtain ⟨l, hl, rfl⟩ := List.mem_map.mp hx
      intro hmem
      rcases List.mem_cons.mp hmem with hmem | hmem
      · exact absurd hmem (by decide)
      · exact hnl l hl hmem
  have hpreHdr : ("@@".toList).isPrefixOf
      ("@@ -0,0 +1,".toList ++ natDigits ls.length ++ " @@".toList) = true := rfl
  have hchanged : parseChangedLines (generateUnifiedDiff (joinNl ls)) =
      (List.range ls.length).map (fun k : Nat => (k : Int)) := by
    unfold parseChangedLines
    rw [hsplitD, parseChangedLinesAux, if_pos hpreHdr, findHunkNums_gen_header]
    norm_num
    rw [pcl_plus_rows ls 0 hplus]
    refine List.map_congr_left ?_
    intro k _
    simp
  have hadds : countAdds (generateUnifiedDiff (joinNl ls)) = ls.length := by
    unfold countAdds
    rw [hsplitD]
    rw [List.filter_cons_of_neg (by
      rw [show (("+".toList).isPrefixOf
          ("@@ -0,0 +1,".toList ++ natDigits ls.length ++ " @@".toList) &&
          !("+++".toList).isPrefixOf
          ("@@ -0,0 +1,".toList ++ natDigits ls.length ++ " @@".toList)) = false
        from rfl]
      simp)]
    rw [List.filter_eq_self.mpr ?_, List.length_map]
    intro row hrow
    obtain ⟨l, hl, rfl⟩ := List.mem_map.mp hrow
    have hpl := hplus l hl
    rw [tl_plus2] at hpl
    simp [tl_plus, tl_plus3, List.isPrefixOf, hpl]
  have hdels : countDels (generateUnifiedDiff (joinNl ls)) = 0 := by
    unfold countDels
    rw [hsplitD]
    rw [List.filter_cons_of_neg (by
      rw [show (("-".toList).isPrefixOf
          ("@@ -0,0 +1,".toList ++ natDigits ls.length ++ " @@".toList) &&
          !("---".toList).isPrefixOf
          ("@@ -0,0 +1,".toList ++ natDigits ls.length ++ " @@".toList)) = false
        from rfl]
      simp)]
    rw [List.filter_eq_nil_iff.mpr ?_]
    · rfl
    · intro row hrow
      obtain ⟨l, hl, rfl⟩ := List.mem_map.mp hrow
      simp [tl_minus, tl_minus3, List.isPrefixOf]
  have hnd : ((List.range ls.length).map (fun k : Nat => (k : Int))).Nodup :=
    (List.nodup_range _).map Nat.cast_injective
  refine ⟨?_, ?_, ?_, ?_, ?_⟩
  · rw [show (loadFileDetails (listedFile p .untracked) .dirty o).diff =
        generateUnifiedDiff (joinNl ls) by simp [loadFileDetails, hfetch], hgen]
  · simp [loadFileDetails, hfetch]
  · rw [show (loadFileDetails (listedFile p .untracked) .dirty o).additions =
        countAdds (generateUnifiedDiff (joinNl ls)) by simp [loadFileDetails, hfetch],
      hadds]
  · rw [show (loadFileDetails (listedFile p .untracked) .dirty o).deletions =
        countDels (generateUnifiedDiff (joinNl ls)) by simp [loadFileDetails, hfetch],
      hdels]
  · rw [show (loadFileDetails (listedFile p .untracked) .dirty o).changedLines =
        toInsertionSet (parseChangedLines (generateUnifiedDiff (joinNl ls))) by
          simp [loadFileDetails, hfetch],
      hchanged, toInsertionSet_nodup hnd]

/-- Counterexample to **C8** as stated: an untracked one-line file whose
line is `++x` synthesizes the diff row `+++x`, which the metadata test
swallows — `additions` is 0, not 1, and `changedLines` is empty, not `{0}`. -/
theorem C8_untracked_counterexample :
    (loadFileDetails (listedFile ("f.txt".toList) .untracked) .dirty
      (untrackedOracle ("++x".toList))).additions = 0 ∧
    (loadFileDetails (listedFile ("f.txt".toList) .untracked) .dirty
      (untrackedOracle ("++x".toList))).changedLines = [] ∧
    (splitNl ("++x".toList)).length = 1 ∧
    ¬ ((0 : Nat) = 1) := by
  refine ⟨by decide, by decide, by decide, by decide⟩

/-- Witness for C8: the amended theorem applied to the two-line file
`"a\nb"`. -/
theorem C8_untracked_loadDetails_witness :
    (loadFileDetails (listedFile ("f.txt".toList) .untracked) .dirty
      (untrackedOracle ("a\nb".toList))).additions = 2 ∧
    (loadFileDetails (listedFile ("f.txt".toList) .untracked) .dirty
      (untrackedOracle ("a\nb".toList))).changedLines = [0, 1] := by
  have h := C8_untracked_loadDetails ("f.txt".toList) ["a".toList, "b".toList]
    (untrackedOracle ("a\nb".toList)) (by decide) (by decide) (by decide)
  exact ⟨h.2.2.1.trans (by decide), h.2.2.2.2.trans (by decide)⟩

/-! ## C7 — parse totality and output ordering -/

/-- Counterexample to **C7** as stated: on the realistic diff ending in a
`\ No newline at end of file` marker, `parseDiff` emits 3 rows, while the
claim's "input ordering minus dropped metadata lines (and pre-header
context/blank lines)" keeps 4 lines — the marker line starts with none of
the recognised prefixes and is silently dropped, a case the claim's
enumeration misses. -/
theorem C7_ordering_counterexample :
    (parseDiff ("@@ -1 +1 @@\n-a\n+b\n\\ No newline at end of file".toList)).length = 3 ∧
    (claimKeptLines ("@@ -1 +1 @@\n-a\n+b\n\\ No newline at end of file".toList)).length = 4 ∧
    ¬ ((3 : Nat) = 4) := by
  refine ⟨by decide, by decide, by decide⟩

/-- **C7 (amended).** `parseDiff` is pure and total (it is a function; the
empty string parses to the empty sequence), processes the input lines one
by one in order, emitting at most one `DiffLine` per input line, and drops
exactly: the five metadata prefixes (`+++`, `---`, `diff --git`,
`new file`, `index `), context/blank lines before a hunk header has made a
counter positive, and any line that begins with none of the recognised
markers (`@@`, `+`, `-`, space) and is non-empty.  Hence the output order
is the input order restricted to the emitted lines. -/
theorem C7_parse_total_ordered :
    parseDiff ("".toList) = [] ∧
    (∀ (oldN newN : Nat) (l : List Char) (ls : List (List Char)),
      parseDiffAux oldN newN (l :: ls) =
        diffLineEmit oldN newN l ++
          parseDiffAux (diffLineStep oldN newN l).1 (diffLineStep oldN newN l).2 ls) ∧
    (∀ (oldN newN : Nat) (l : List Char), (diffLineEmit oldN newN l).length ≤ 1) ∧
    (∀ (oldN newN : Nat) (l : List Char),
      diffLineEmit oldN newN l = [] ↔ emitsLine oldN newN l = false) := by
  refine ⟨by decide, ?_, ?_, ?_⟩
  · intro oldN newN l ls
    simp only [parseDiffAux, diffLineEmit, diffLineStep]
    split_ifs <;>
      first
      | rfl
      | (cases hf : findHunkNums l <;> simp [hf])
  · intro oldN newN l
    simp only [diffLineEmit]
    split_ifs <;> simp
  · intro oldN newN l
    simp only [diffLineEmit, emitsLine]
    split_ifs <;>
      simp_all [Bool.eq_false_iff, List.isPrefixOf_iff_prefix] <;> tauto
